import Mathlib

/-!
Shallow embedding of the starterator-json-checker repository
(src/json_data/verify_json.py and the load_pham_ids routine shared with
src/json_data/GUI.py), together with proofs about the embedded code.

Modelling conventions:
- Python dicts are insertion-ordered association lists; dict.get is a
  first-match lookup.
- Python floats are modelled as exact rationals, following the real-valued
  semantics of the division in recompute_conservation.
- Rational arithmetic is implemented through mkRat so that every definition
  evaluates inside the kernel; lemmas below identify these operations with
  the standard field operations on the rationals.
- Python exceptions (KeyError, ZeroDivisionError, ValueError) are modelled by
  an Except monad.
-/

namespace VerifyJson

/-- Errors the verify_json code can raise while recomputing or comparing. -/
inductive PyError where
  | keyError
  | zeroDivisionError
  | valueError
deriving DecidableEq

/-- Subtraction of rationals, computed on numerators and denominators exactly
as a field subtraction; stated this way so that it evaluates by kernel
reduction (the library subtraction on the rationals is irreducible). -/
def ratSub (a b : ℚ) : ℚ :=
  mkRat (a.num * (b.den : Int) - b.num * (a.den : Int)) (a.den * b.den)

/-- Absolute value of a rational, computed on the numerator. -/
def ratAbs (a : ℚ) : ℚ := mkRat (a.num.natAbs : Int) a.den

/-- Real-valued division of two Python integers, the semantics of the single
slash operator applied in recompute_conservation. -/
def ratDivInt (a b : Int) : ℚ :=
  if 0 ≤ b then mkRat a b.natAbs else mkRat (-a) b.natAbs

theorem ratSub_eq (a b : ℚ) : ratSub a b = a - b := by
  have ha : ((a.den : ℚ)) ≠ 0 := by
    exact_mod_cast a.den_nz
  have hb : ((b.den : ℚ)) ≠ 0 := by
    exact_mod_cast b.den_nz
  unfold ratSub
  rw [Rat.mkRat_eq_div]
  conv_rhs => rw [← Rat.num_div_den a, ← Rat.num_div_den b]
  rw [div_sub_div _ _ ha hb]
  congr 1 <;> push_cast <;> ring

theorem ratAbs_eq (a : ℚ) : ratAbs a = |a| := by
  unfold ratAbs
  rcases le_or_lt 0 a.num with h | h
  · rw [Int.natAbs_of_nonneg h, Rat.mkRat_self, abs_of_nonneg (Rat.num_nonneg.mp h)]
  · have hneg : a < 0 := by
      by_contra hcon
      exact absurd (Rat.num_nonneg.mpr (not_lt.mp hcon)) (not_le.mpr h)
    have habs : ((a.num.natAbs : Int)) = -a.num := Int.ofNat_natAbs_of_nonpos (le_of_lt h)
    rw [habs, abs_of_neg hneg, Rat.mkRat_eq_div]
    push_cast
    rw [neg_div]
    rw [Rat.num_div_den a]

theorem ratDivInt_eq (a b : Int) : ratDivInt a b = (a : ℚ) / (b : ℚ) := by
  unfold ratDivInt
  split
  · rename_i h
    rw [Rat.mkRat_eq_div]
    congr 1
    rw [Int.cast_natAbs]
    exact_mod_cast abs_of_nonneg h
  · rename_i h
    rw [Rat.mkRat_eq_div]
    have h1 : ((b.natAbs : ℚ)) = -(b : ℚ) := by
      rw [Int.cast_natAbs]
      exact_mod_cast abs_of_neg (not_le.mp h)
    rw [h1]
    push_cast
    rw [neg_div_neg_eq]

/-- Numeric value of a decimal digit character. -/
def digitVal (c : Char) : Nat := c.toNat - 48

/-- Value of a list of decimal digit characters read most significant first. -/
def digitsToNat (cs : List Char) : Nat :=
  cs.foldl (fun acc c => 10 * acc + digitVal c) 0

/-- Fueled most-significant-first decimal digit expansion of a natural
number; fuel n + 1 always suffices for n. -/
def natDigits : Nat → Nat → List Char
  | 0, _ => []
  | fuel + 1, n =>
    if n < 10 then [Nat.digitChar n]
    else natDigits fuel (n / 10) ++ [Nat.digitChar (n % 10)]

/-- Decimal digit string of a natural number. -/
def natChars (n : Nat) : List Char := natDigits (n + 1) n

/-- Embedding of the Python built-in str applied to an int: an optional
leading minus sign followed by the decimal digits. -/
def intChars (i : Int) : List Char :=
  if i < 0 then '-' :: natChars i.natAbs else natChars i.natAbs

/-- String form of intChars, matching the keys of the JSON tables. -/
def intStr (i : Int) : String := String.mk (intChars i)

/-- Embedding of the Python built-in int applied to a character list: an
optional sign followed by at least one decimal digit.  (CPython additionally
accepts surrounding whitespace and underscore digit grouping; those inputs do
not occur in the canonical data handled here and are not modelled.) -/
def pyIntChars? (cs : List Char) : Option Int :=
  match cs with
  | [] => none
  | c :: rest =>
    if c = '-' then
      if rest ≠ [] ∧ rest.all Char.isDigit then some (-(digitsToNat rest : Int)) else none
    else if c = '+' then
      if rest ≠ [] ∧ rest.all Char.isDigit then some ((digitsToNat rest : Int)) else none
    else
      if (c :: rest).all Char.isDigit then some ((digitsToNat (c :: rest) : Int)) else none

/-- Embedding of the Python built-in int applied to a string. -/
def pyInt? (s : String) : Option Int := pyIntChars? s.data

theorem digitVal_digitChar {m : Nat} (h : m < 10) : digitVal (Nat.digitChar m) = m := by
  interval_cases m <;> rfl

theorem isDigit_digitChar {m : Nat} (h : m < 10) : (Nat.digitChar m).isDigit = true := by
  interval_cases m <;> rfl

theorem digitsToNat_append_singleton (cs : List Char) (c : Char) :
    digitsToNat (cs ++ [c]) = 10 * digitsToNat cs + digitVal c := by
  unfold digitsToNat
  rw [List.foldl_append]
  rfl

theorem natDigits_spec :
    ∀ fuel n, n < fuel →
      natDigits fuel n ≠ [] ∧ (∀ c ∈ natDigits fuel n, c.isDigit = true) ∧
        digitsToNat (natDigits fuel n) = n := by
  intro fuel
  induction fuel with
  | zero => intro n hn; omega
  | succ f ih =>
    intro n hn
    by_cases hsmall : n < 10
    · refine ⟨by simp [natDigits, hsmall], ?_, ?_⟩
      · intro c hc
        simp only [natDigits, if_pos hsmall, List.mem_singleton] at hc
        subst hc
        exact isDigit_digitChar hsmall
      · simp only [natDigits, if_pos hsmall]
        show digitsToNat [Nat.digitChar n] = n
        unfold digitsToNat
        simp [digitVal_digitChar hsmall]
    · have hdiv : n / 10 < f := by
        have h1 : n / 10 < n := Nat.div_lt_self (by omega) (by omega)
        omega
      obtain ⟨hne, hdigits, hval⟩ := ih (n / 10) hdiv
      simp only [natDigits, if_neg hsmall]
      refine ⟨by simp, ?_, ?_⟩
      · intro c hc
        rcases List.mem_append.mp hc with hc | hc
        · exact hdigits c hc
        · rw [List.mem_singleton] at hc
          subst hc
          exact isDigit_digitChar (Nat.mod_lt _ (by omega))
      · rw [digitsToNat_append_singleton, hval, digitVal_digitChar (Nat.mod_lt _ (by omega))]
        omega

theorem natChars_ne_nil (n : Nat) : natChars n ≠ [] :=
  (natDigits_spec (n + 1) n (Nat.lt_succ_self n)).1

theorem natChars_all_digit (n : Nat) : ∀ c ∈ natChars n, c.isDigit = true :=
  (natDigits_spec (n + 1) n (Nat.lt_succ_self n)).2.1

theorem digitsToNat_natChars (n : Nat) : digitsToNat (natChars n) = n :=
  (natDigits_spec (n + 1) n (Nat.lt_succ_self n)).2.2

theorem pyIntChars_cons (c : Char) (rest : List Char) :
    pyIntChars? (c :: rest) =
      if c = '-' then
        (if rest ≠ [] ∧ rest.all Char.isDigit then some (-(digitsToNat rest : Int)) else none)
      else if c = '+' then
        (if rest ≠ [] ∧ rest.all Char.isDigit then some ((digitsToNat rest : Int)) else none)
      else
        (if (c :: rest).all Char.isDigit then some ((digitsToNat (c :: rest) : Int))
         else none) := rfl

theorem pyIntChars_natChars (n : Nat) : pyIntChars? (natChars n) = some (n : Int) := by
  obtain ⟨c, rest, hcr⟩ := List.exists_cons_of_ne_nil (natChars_ne_nil n)
  have hdigit : c.isDigit = true := by
    apply natChars_all_digit n
    rw [hcr]; exact List.mem_cons_self _ _
  have hminus : c ≠ '-' := by
    intro hc; rw [hc] at hdigit; exact absurd hdigit (by decide)
  have hplus : c ≠ '+' := by
    intro hc; rw [hc] at hdigit; exact absurd hdigit (by decide)
  have hall : (c :: rest).all Char.isDigit = true := by
    rw [← hcr]
    rw [List.all_eq_true]
    exact natChars_all_digit n
  rw [hcr, pyIntChars_cons, if_neg hminus, if_neg hplus, if_pos hall, ← hcr,
    digitsToNat_natChars]

theorem pyIntChars_intChars (i : Int) : pyIntChars? (intChars i) = some i := by
  unfold intChars
  split
  · rename_i h
    have hne : natChars i.natAbs ≠ [] := natChars_ne_nil _
    have hall : (natChars i.natAbs).all Char.isDigit = true := by
      rw [List.all_eq_true]; exact natChars_all_digit _
    rw [pyIntChars_cons, if_pos rfl, if_pos ⟨hne, hall⟩, digitsToNat_natChars]
    congr 1
    omega
  · rename_i h
    rw [pyIntChars_natChars]
    congr 1
    omega

theorem pyInt_intStr (i : Int) : pyInt? (intStr i) = some i := by
  show pyIntChars? (intChars i) = some i
  exact pyIntChars_intChars i

theorem intStr_injective {i j : Int} (h : intStr i = intStr j) : i = j := by
  have h2 : pyInt? (intStr i) = pyInt? (intStr j) := by rw [h]
  rw [pyInt_intStr, pyInt_intStr] at h2
  exact Option.some.inj h2

instance {ε α : Type} [DecidableEq ε] [DecidableEq α] : DecidableEq (Except ε α) :=
  fun a b =>
    match a, b with
    | Except.error e1, Except.error e2 =>
      decidable_of_iff (e1 = e2) ⟨fun h => congrArg Except.error h, Except.error.inj⟩
    | Except.ok x, Except.ok y =>
      decidable_of_iff (x = y) ⟨fun h => congrArg Except.ok h, Except.ok.inj⟩
    | Except.error _, Except.ok _ => isFalse (fun h => Except.noConfusion h)
    | Except.ok _, Except.error _ => isFalse (fun h => Except.noConfusion h)

/-- One member record of a pham, keeping only the AvailableStarts field the
code reads. -/
structure Gene where
  availableStarts : List Int
deriving DecidableEq

/-- A parsed pham JSON document with the four fields verify_json.py touches.
An absent dict key is modelled by none; a stored Conservation entry whose
value is JSON null is modelled by an entry carrying none. -/
structure Dataset where
  name : Option String
  memberCount : Option Int
  genes : Option (List Gene)
  conservation : Option (List (String × Option ℚ))
deriving DecidableEq

/-- One execution of the statement incrementing present_counts at a start:
an insertion-ordered dict update, appending a fresh key at the end. -/
def bump : List (Int × Nat) → Int → List (Int × Nat)
  | [], k => [(k, 1)]
  | (k2, v) :: rest, k =>
    if k2 = k then (k2, v + 1) :: rest else (k2, v) :: bump rest k

/-- The double loop of recompute_conservation over the genes and over each
gene AvailableStarts list. -/
def countStarts (genes : List Gene) : List (Int × Nat) :=
  genes.foldl (fun m g => g.availableStarts.foldl bump m) []

/-- present_counts lookup, defaulting to zero for an absent key; dict keys
are unique, so first-match lookup is dict lookup. -/
def lookupCount : List (Int × Nat) → Int → Nat
  | [], _ => 0
  | (k2, v) :: rest, k => if k2 = k then v else lookupCount rest k

/-- Reference count used by the specification theorems: how many times a
position occurs across all genes, a duplicate within one gene counting once
per occurrence. -/
def totalCount (genes : List Gene) (p : Int) : Nat :=
  (genes.map (fun g => g.availableStarts.count p)).sum

/-- The invariant of the present_counts dict: a key is present exactly when
its count is positive. -/
def PosKeys (m : List (Int × Nat)) : Prop :=
  ∀ q : Int, q ∈ m.map Prod.fst ↔ 0 < lookupCount m q

/-- Embedding of recompute_conservation, verify_json.py lines 95 to 115.
The dict comprehension divides only while iterating the sorted keys, so a
zero MemberCount raises ZeroDivisionError exactly when a key exists. -/
def recompute_conservation (data : Dataset) : Except PyError (List (String × ℚ)) :=
  match data.memberCount with
  | none => Except.error PyError.keyError
  | some mc =>
    match data.genes with
    | none => Except.error PyError.keyError
    | some genes =>
      let counts := countStarts genes
      let keys := List.insertionSort (fun a b : Int => a ≤ b) (counts.map Prod.fst)
      if mc = 0 ∧ keys ≠ [] then Except.error PyError.zeroDivisionError
      else Except.ok (keys.map (fun k => (intStr k, ratDivInt ((lookupCount counts k : Nat) : Int) mc)))

/-- json_cons.get(k): none when the key is absent or its stored value is
null. -/
def lookupStored : List (String × Option ℚ) → String → Option ℚ
  | [], _ => none
  | (k2, v) :: rest, k => if k2 = k then v else lookupStored rest k

/-- recomputed.get(k). -/
def lookupRec : List (String × ℚ) → String → Option ℚ
  | [], _ => none
  | (k2, v) :: rest, k => if k2 = k then some v else lookupRec rest k

/-- The two issue kinds a mismatch record can carry. -/
inductive Issue where
  | missing_in_one_side
  | value_mismatch
deriving DecidableEq

/-- One mismatch record produced by compare_conservation. -/
structure Mismatch where
  start : String
  issue : Issue
  json : Option ℚ
  recomputed : Option ℚ
deriving DecidableEq

/-- The body of the per-key loop of compare_conservation: a key absent on
either side, the stored side treating a null value as absence, yields a
missing_in_one_side record; both sides present yields a value_mismatch
record exactly when the absolute difference exceeds the tolerance. -/
def emitMismatch (json_cons : List (String × Option ℚ)) (recomputed : List (String × ℚ))
    (tol : ℚ) (k : String) : Option Mismatch :=
  match lookupStored json_cons k, lookupRec recomputed k with
  | some j, some r =>
    if tol < ratAbs (ratSub j r) then
      some (Mismatch.mk k Issue.value_mismatch (some j) (some r))
    else none
  | jc, rc => some (Mismatch.mk k Issue.missing_in_one_side jc rc)

/-- Effectful map over a list in the Except monad, written out so that it
unfolds by structural recursion. -/
def exMapM {α β : Type} (f : α → Except PyError β) : List α → Except PyError (List β)
  | [] => Except.ok []
  | x :: xs =>
    match f x with
    | Except.error e => Except.error e
    | Except.ok y =>
      match exMapM f xs with
      | Except.error e => Except.error e
      | Except.ok ys => Except.ok (y :: ys)

/-- int(k) applied to a table key inside the sort, pairing the key with its
integer value; an unparsable key raises ValueError. -/
def parseKey (k : String) : Except PyError (String × Int) :=
  match pyInt? k with
  | some n => Except.ok (k, n)
  | none => Except.error PyError.valueError

/-- Comparison of keyed pairs by integer value, the key function int of the
sorted call. -/
abbrev sndLe (a b : String × Int) : Prop := a.2 ≤ b.2

instance : DecidableRel sndLe := fun a b => inferInstanceAs (Decidable (a.2 ≤ b.2))

instance : IsTotal (String × Int) sndLe := ⟨fun a b => le_total a.2 b.2⟩

instance : IsTrans (String × Int) sndLe := ⟨fun _ _ _ h1 h2 => le_trans h1 h2⟩

/-- The default tolerance of compare_conservation, the literal 1e-6 of the
source read as an exact rational. -/
def defaultTol : ℚ := mkRat 1 1000000

/-- Embedding of compare_conservation, verify_json.py lines 118 to 160.
The union of key sets is modelled by a deduplicated append; the sorted call
with key int is a stable sort of the keys paired with their parsed values. -/
def compare_conservation (data : Dataset) (tol : ℚ) :
    Except PyError (Option String × List Mismatch) :=
  match data.conservation with
  | none => Except.error PyError.keyError
  | some json_cons =>
    match recompute_conservation data with
    | Except.error e => Except.error e
    | Except.ok recomputed =>
      match exMapM parseKey ((json_cons.map Prod.fst ++ recomputed.map Prod.fst).dedup) with
      | Except.error e => Except.error e
      | Except.ok keyed =>
        Except.ok (data.name,
          ((List.insertionSort sndLe keyed).map Prod.fst).filterMap
            (emitMismatch json_cons recomputed tol))

/-- A call of compare_conservation that leaves the tolerance argument at its
default. -/
def compare_conservation_default (data : Dataset) :
    Except PyError (Option String × List Mismatch) :=
  compare_conservation data defaultTol

/-- Whitespace in the sense of the Python str.strip default. -/
def pyIsSpace (c : Char) : Bool :=
  c = ' ' ∨ c = '\t' ∨ c = '\n' ∨ c = '\r' ∨ c.toNat = 11 ∨ c.toNat = 12

/-- Embedding of str.strip with no argument. -/
def pyStrip (s : String) : String :=
  String.mk (((s.data.dropWhile pyIsSpace).reverse.dropWhile pyIsSpace).reverse)

/-- Worker for str.splitlines over the common line boundaries: a trailing
terminator closes the final line without opening an empty one. -/
def pySplitlinesAux : List Char → List Char → List String
  | [], acc => if acc.isEmpty then [] else [String.mk acc.reverse]
  | '\n' :: rest, acc => String.mk acc.reverse :: pySplitlinesAux rest []
  | '\r' :: '\n' :: rest, acc => String.mk acc.reverse :: pySplitlinesAux rest []
  | '\r' :: rest, acc => String.mk acc.reverse :: pySplitlinesAux rest []
  | c :: rest, acc => pySplitlinesAux rest (c :: acc)

/-- Embedding of str.splitlines as read_text().splitlines() uses it. -/
def pySplitlines (s : String) : List String := pySplitlinesAux s.data []

/-- Embedding of load_pham_ids, verify_json.py lines 20 to 39 and the copy in
GUI.py lines 23 to 41, as a function of the text of pham_ids_file; the file
existence check and the read are the caller side of the model. A stripped
line is skipped when empty or starting with a hash; a line int fails on is
warned about and skipped; the survivors are deduplicated and sorted.
This is the per-line step: the parsed integer of a surviving line, none for
a skipped one. -/
def lineId? (raw : String) : Option Int :=
  match (pyStrip raw).data with
  | [] => none
  | c :: _ => if c = '#' then none else pyInt? (pyStrip raw)

/-- The sorted deduplication the load performs before returning the ids. -/
def load_pham_ids (text : String) : List Int :=
  List.insertionSort (fun a b : Int => a ≤ b)
    ((pySplitlines text).filterMap lineId?).dedup

theorem lookupCount_bump (m : List (Int × Nat)) (k p : Int) :
    lookupCount (bump m k) p = lookupCount m p + (if p = k then 1 else 0) := by
  induction m with
  | nil =>
    simp only [bump, lookupCount]
    split_ifs <;> omega
  | cons hd tl ih =>
    obtain ⟨k2, v⟩ := hd
    simp only [bump]
    by_cases h2 : k2 = k
    · subst h2
      rw [if_pos rfl]
      simp only [lookupCount]
      split_ifs <;> omega
    · rw [if_neg h2]
      simp only [lookupCount]
      rw [ih]
      split_ifs <;> omega

theorem lookupCount_foldl_bump (l : List Int) (m : List (Int × Nat)) (p : Int) :
    lookupCount (l.foldl bump m) p = lookupCount m p + l.count p := by
  induction l generalizing m with
  | nil => simp
  | cons x xs ih =>
    rw [List.foldl_cons, ih, lookupCount_bump, List.count_cons]
    simp only [beq_iff_eq]
    split_ifs <;> omega

theorem totalCount_cons (g : Gene) (gs : List Gene) (p : Int) :
    totalCount (g :: gs) p = g.availableStarts.count p + totalCount gs p := by
  simp [totalCount]

theorem lookupCount_countStarts (gs : List Gene) (p : Int) :
    lookupCount (countStarts gs) p = totalCount gs p := by
  suffices h : ∀ m, lookupCount (gs.foldl (fun m g => g.availableStarts.foldl bump m) m) p =
      lookupCount m p + totalCount gs p by
    simpa [countStarts, lookupCount] using h []
  induction gs with
  | nil => intro m; simp [totalCount]
  | cons g gs ih =>
    intro m
    rw [List.foldl_cons, ih, lookupCount_foldl_bump, totalCount_cons]
    omega

theorem mem_keys_bump (m : List (Int × Nat)) (k p : Int) :
    p ∈ (bump m k).map Prod.fst ↔ p ∈ m.map Prod.fst ∨ p = k := by
  induction m with
  | nil => simp [bump, eq_comm]
  | cons hd tl ih =>
    obtain ⟨k2, v⟩ := hd
    simp only [bump]
    by_cases h2 : k2 = k
    · subst h2
      simp [eq_comm]
      tauto
    · rw [if_neg h2]
      simp only [List.map_cons, List.mem_cons, ih]
      tauto

theorem posKeys_bump {m : List (Int × Nat)} (h : PosKeys m) (k : Int) :
    PosKeys (bump m k) := by
  intro q
  rw [mem_keys_bump, lookupCount_bump, h q]
  by_cases hq : q = k
  · subst hq; simp
  · simp [hq]

theorem posKeys_foldl_bump {m : List (Int × Nat)} (h : PosKeys m) (l : List Int) :
    PosKeys (l.foldl bump m) := by
  induction l generalizing m with
  | nil => exact h
  | cons x xs ih => exact ih (posKeys_bump h x)

theorem posKeys_countStarts (gs : List Gene) : PosKeys (countStarts gs) := by
  suffices hstep : ∀ m, PosKeys m →
      PosKeys (gs.foldl (fun m g => g.availableStarts.foldl bump m) m) by
    exact hstep [] (fun q => by simp [lookupCount])
  induction gs with
  | nil => intro m hm; exact hm
  | cons g gs ih => intro m hm; exact ih _ (posKeys_foldl_bump hm _)

theorem mem_keys_countStarts (gs : List Gene) (p : Int) :
    p ∈ (countStarts gs).map Prod.fst ↔ 0 < totalCount gs p := by
  rw [posKeys_countStarts gs p, lookupCount_countStarts]

theorem recompute_eq_ok (d : Dataset) (mc : Int) (gs : List Gene)
    (hmc : d.memberCount = some mc) (hg : d.genes = some gs) (hnz : mc ≠ 0) :
    recompute_conservation d =
      Except.ok
        ((List.insertionSort (fun a b : Int => a ≤ b) ((countStarts gs).map Prod.fst)).map
          (fun k => (intStr k, ratDivInt ((totalCount gs k : Nat) : Int) mc))) := by
  simp only [recompute_conservation, hmc, hg]
  rw [if_neg (fun h => hnz h.1)]
  congr 1
  apply List.map_congr_left
  intro k hk
  rw [lookupCount_countStarts]

theorem recompute_ok_inv {d : Dataset} {tbl : List (String × ℚ)}
    (h : recompute_conservation d = Except.ok tbl) :
    ∃ mc gs, d.memberCount = some mc ∧ d.genes = some gs ∧
      tbl = (List.insertionSort (fun a b : Int => a ≤ b) ((countStarts gs).map Prod.fst)).map
        (fun k => (intStr k, ratDivInt ((totalCount gs k : Nat) : Int) mc)) := by
  unfold recompute_conservation at h
  split at h
  · cases h
  · rename_i mc hmc
    split at h
    · cases h
    · rename_i gs hg
      simp only [] at h
      split at h
      · cases h
      · rename_i hcond
        refine ⟨mc, gs, hmc, hg, ?_⟩
        have := Except.ok.inj h
        rw [← this]
        apply List.map_congr_left
        intro k hk
        rw [lookupCount_countStarts]

theorem ratDivInt_natCast (n : Nat) (mc : Int) :
    ratDivInt ((n : Nat) : Int) mc = (n : ℚ) / (mc : ℚ) := by
  rw [ratDivInt_eq]
  push_cast
  ring

/-- C1: on a dataset with a positive member count, recompute_conservation
succeeds with the table whose keys are exactly the decimal string encodings
of the positions occurring at least once across the genes, each valued at
its occurrence count (duplicates within one gene counted per occurrence)
divided by the member count; zero-count positions never appear, and an empty
gene list yields the empty table. -/
theorem recompute_conservation_correct (d : Dataset) (mc : Int) (gs : List Gene)
    (hmc : d.memberCount = some mc) (hg : d.genes = some gs) (hpos : 0 < mc) :
    ∃ tbl, recompute_conservation d = Except.ok tbl ∧
      (∀ s v, (s, v) ∈ tbl ↔
        ∃ p : Int, 0 < totalCount gs p ∧ s = intStr p ∧
          v = ((totalCount gs p : ℚ)) / ((mc : ℚ))) ∧
      (∀ p : Int, totalCount gs p = 0 → ∀ v, (intStr p, v) ∉ tbl) ∧
      (gs = [] → tbl = []) := by
  have hnz : mc ≠ 0 := by omega
  refine ⟨_, recompute_eq_ok d mc gs hmc hg hnz, ?_, ?_, ?_⟩
  · intro s v
    constructor
    · intro hmem
      rw [List.mem_map] at hmem
      obtain ⟨k, hk, hfk⟩ := hmem
      have hk2 : k ∈ (countStarts gs).map Prod.fst :=
        ((List.perm_insertionSort _ _).mem_iff).mp hk
      rw [mem_keys_countStarts] at hk2
      rw [Prod.mk.injEq] at hfk
      obtain ⟨hs, hv⟩ := hfk
      exact ⟨k, hk2, hs.symm, by rw [← hv, ratDivInt_natCast]⟩
    · intro hmem
      obtain ⟨p, hp, hs, hv⟩ := hmem
      rw [List.mem_map]
      refine ⟨p, ?_, ?_⟩
      · rw [(List.perm_insertionSort _ _).mem_iff, mem_keys_countStarts]
        exact hp
      · rw [Prod.mk.injEq]
        exact ⟨hs.symm, by rw [ratDivInt_natCast, hv]⟩
  · intro p hp v hmem
    rw [List.mem_map] at hmem
    obtain ⟨k, hk, hfk⟩ := hmem
    have hk2 : k ∈ (countStarts gs).map Prod.fst :=
      ((List.perm_insertionSort _ _).mem_iff).mp hk
    rw [mem_keys_countStarts] at hk2
    rw [Prod.mk.injEq] at hfk
    obtain ⟨hs, hv⟩ := hfk
    rw [intStr_injective hs] at hk2
    omega
  · intro hgs
    subst hgs
    rfl

/-- C1 witness on a concrete dataset with member count two and genes listing
starts five, and five and seven. -/
theorem recompute_conservation_correct_witness :
    ∃ tbl,
      recompute_conservation
        (Dataset.mk none (some 2) (some [Gene.mk [5], Gene.mk [5, 7]]) none) =
        Except.ok tbl ∧
      (∀ s v, (s, v) ∈ tbl ↔
        ∃ p : Int, 0 < totalCount [Gene.mk [5], Gene.mk [5, 7]] p ∧ s = intStr p ∧
          v = ((totalCount [Gene.mk [5], Gene.mk [5, 7]] p : ℚ)) / (((2 : Int) : ℚ))) ∧
      (∀ p : Int, totalCount [Gene.mk [5], Gene.mk [5, 7]] p = 0 →
        ∀ v, (intStr p, v) ∉ tbl) ∧
      (([Gene.mk [5], Gene.mk [5, 7]] : List Gene) = [] → tbl = []) :=
  recompute_conservation_correct _ 2 [Gene.mk [5], Gene.mk [5, 7]] rfl rfl (by decide)

/-- C2 counterexample: a dataset with member count zero and no genes makes
recompute_conservation return an empty table successfully instead of
signalling any error, refuting the claim that a zero member count always
raises a data integrity error. -/
theorem recompute_zero_member_counterexample :
    (Dataset.mk none (some 0) (some []) (some [])).memberCount = some 0 ∧
      recompute_conservation (Dataset.mk none (some 0) (some []) (some [])) =
        Except.ok [] := ⟨rfl, by decide⟩

/-- C2 amended: absent MemberCount or Genes fields raise KeyError; a zero
member count raises ZeroDivisionError exactly when at least one position
occurs; any nonzero member count, negative ones included, and a zero member
count with no occurring positions return a table without signalling; no
dedicated data integrity error exists in the code. -/
theorem recompute_error_behavior (d : Dataset) :
    (d.memberCount = none → recompute_conservation d = Except.error PyError.keyError) ∧
    (∀ mc, d.memberCount = some mc → d.genes = none →
      recompute_conservation d = Except.error PyError.keyError) ∧
    (∀ gs, d.memberCount = some 0 → d.genes = some gs →
      (∃ p : Int, 0 < totalCount gs p) →
      recompute_conservation d = Except.error PyError.zeroDivisionError) ∧
    (∀ mc gs, d.memberCount = some mc → d.genes = some gs → mc ≠ 0 →
      ∃ tbl, recompute_conservation d = Except.ok tbl) := by
  refine ⟨?_, ?_, ?_, ?_⟩
  · intro hmc
    simp only [recompute_conservation, hmc]
  · intro mc hmc hg
    simp only [recompute_conservation, hmc, hg]
  · intro gs hmc hg hp
    obtain ⟨p, hp⟩ := hp
    have hne : List.insertionSort (fun a b : Int => a ≤ b) ((countStarts gs).map Prod.fst) ≠ [] := by
      intro hnil
      have hmem : p ∈ (countStarts gs).map Prod.fst := (mem_keys_countStarts gs p).mpr hp
      rw [← (List.perm_insertionSort (fun a b : Int => a ≤ b) _).mem_iff] at hmem
      rw [hnil] at hmem
      cases hmem
    simp only [recompute_conservation, hmc, hg]
    rw [if_pos ⟨trivial, hne⟩]
  · intro mc gs hmc hg hnz
    exact ⟨_, recompute_eq_ok d mc gs hmc hg hnz⟩

/-- C2 amended witness: with member count zero and a single gene listing one
start, recompute_conservation raises ZeroDivisionError. -/
theorem recompute_error_behavior_witness :
    recompute_conservation (Dataset.mk none (some 0) (some [Gene.mk [5]]) none) =
      Except.error PyError.zeroDivisionError :=
  (recompute_error_behavior (Dataset.mk none (some 0) (some [Gene.mk [5]]) none)).2.2.1
    [Gene.mk [5]] rfl rfl ⟨5, by decide⟩

/-- C10: the recomputed table reads only the Genes and MemberCount fields;
datasets agreeing on those two fields recompute identically whatever their
Name and stored Conservation fields hold. -/
theorem recompute_depends_only_on_genes_and_members (d1 d2 : Dataset)
    (hg : d1.genes = d2.genes) (hmc : d1.memberCount = d2.memberCount) :
    recompute_conservation d1 = recompute_conservation d2 := by
  unfold recompute_conservation
  rw [hg, hmc]

/-- C10 witness: two concrete datasets differing in name and stored table
but agreeing on genes and member count recompute identically. -/
theorem recompute_depends_only_on_genes_and_members_witness :
    recompute_conservation
      (Dataset.mk (some (String.mk [Char.ofNat 65])) (some 2) (some [Gene.mk [5]])
        (some [(intStr 1, some 1)])) =
    recompute_conservation
      (Dataset.mk none (some 2) (some [Gene.mk [5]]) none) :=
  recompute_depends_only_on_genes_and_members _ _ rfl rfl

theorem lookupStored_eq_none_of_not_mem {m : List (String × Option ℚ)} {k : String}
    (h : k ∉ m.map Prod.fst) : lookupStored m k = none := by
  induction m with
  | nil => rfl
  | cons hd tl ih =>
    obtain ⟨k2, v⟩ := hd
    simp only [List.map_cons, List.mem_cons] at h
    push_neg at h
    simp only [lookupStored]
    rw [if_neg (fun hh => h.1 hh.symm), ih h.2]

theorem lookupStored_some_mem {m : List (String × Option ℚ)} {k : String} {v : ℚ}
    (h : lookupStored m k = some v) : k ∈ m.map Prod.fst := by
  induction m with
  | nil => cases h
  | cons hd tl ih =>
    obtain ⟨k2, w⟩ := hd
    simp only [lookupStored] at h
    simp only [List.map_cons, List.mem_cons]
    by_cases h2 : k2 = k
    · exact Or.inl h2.symm
    · rw [if_neg h2] at h
      exact Or.inr (ih h)

theorem lookupStored_mem_of_ne_none {m : List (String × Option ℚ)} {k : String}
    (h : lookupStored m k ≠ none) : k ∈ m.map Prod.fst := by
  cases hv : lookupStored m k with
  | none => exact absurd hv h
  | some v => exact lookupStored_some_mem hv

theorem lookupRec_eq_none_of_not_mem {m : List (String × ℚ)} {k : String}
    (h : k ∉ m.map Prod.fst) : lookupRec m k = none := by
  induction m with
  | nil => rfl
  | cons hd tl ih =>
    obtain ⟨k2, v⟩ := hd
    simp only [List.map_cons, List.mem_cons] at h
    push_neg at h
    simp only [lookupRec]
    rw [if_neg (fun hh => h.1 hh.symm), ih h.2]

theorem lookupRec_of_mem {m : List (String × ℚ)} {k : String}
    (h : k ∈ m.map Prod.fst) : ∃ v, lookupRec m k = some v := by
  induction m with
  | nil => cases h
  | cons hd tl ih =>
    obtain ⟨k2, v⟩ := hd
    simp only [List.map_cons, List.mem_cons] at h
    simp only [lookupRec]
    by_cases h2 : k2 = k
    · exact ⟨v, if_pos h2⟩
    · rw [if_neg h2]
      rcases h with h | h
      · exact absurd h.symm h2
      · exact ih h

theorem lookupRec_some_mem {m : List (String × ℚ)} {k : String} {v : ℚ}
    (h : lookupRec m k = some v) : k ∈ m.map Prod.fst := by
  induction m with
  | nil => cases h
  | cons hd tl ih =>
    obtain ⟨k2, w⟩ := hd
    simp only [lookupRec] at h
    simp only [List.map_cons, List.mem_cons]
    by_cases h2 : k2 = k
    · exact Or.inl h2.symm
    · rw [if_neg h2] at h
      exact Or.inr (ih h)

theorem lookupStored_map_some (tbl : List (String × ℚ)) (k : String) :
    lookupStored (tbl.map (fun p => (p.1, some p.2))) k = lookupRec tbl k := by
  induction tbl with
  | nil => rfl
  | cons hd tl ih =>
    obtain ⟨k2, v⟩ := hd
    simp only [List.map_cons, lookupStored, lookupRec]
    by_cases h2 : k2 = k
    · rw [if_pos h2, if_pos h2]
    · rw [if_neg h2, if_neg h2, ih]

theorem emitMismatch_start {cons : List (String × Option ℚ)} {tbl : List (String × ℚ)}
    {tol : ℚ} {k : String} {m : Mismatch}
    (h : emitMismatch cons tbl tol k = some m) : m.start = k := by
  unfold emitMismatch at h
  split at h
  · split at h
    · rw [← Option.some.inj h]
    · cases h
  · rw [← Option.some.inj h]

theorem emitMismatch_eq_missing {cons : List (String × Option ℚ)} {tbl : List (String × ℚ)}
    {tol : ℚ} {k : String}
    (h : lookupStored cons k = none ∨ lookupRec tbl k = none) :
    emitMismatch cons tbl tol k =
      some (Mismatch.mk k Issue.missing_in_one_side (lookupStored cons k) (lookupRec tbl k)) := by
  unfold emitMismatch
  cases hjc : lookupStored cons k with
  | none =>
    cases hrc : lookupRec tbl k with
    | none => rfl
    | some r => rfl
  | some j =>
    cases hrc : lookupRec tbl k with
    | none => rfl
    | some r =>
      rw [hjc, hrc] at h
      rcases h with h | h <;> cases h

theorem emitMismatch_eq_value {cons : List (String × Option ℚ)} {tbl : List (String × ℚ)}
    {tol : ℚ} {k : String} {j r : ℚ}
    (hj : lookupStored cons k = some j) (hr : lookupRec tbl k = some r) :
    emitMismatch cons tbl tol k =
      (if tol < |j - r| then some (Mismatch.mk k Issue.value_mismatch (some j) (some r))
       else none) := by
  unfold emitMismatch
  rw [hj, hr]
  change (if tol < ratAbs (ratSub j r) then
      some (Mismatch.mk k Issue.value_mismatch (some j) (some r))
    else none) =
    (if tol < |j - r| then some (Mismatch.mk k Issue.value_mismatch (some j) (some r))
     else none)
  rw [ratSub_eq, ratAbs_eq]

theorem start_mem_of_mem_filterMap {f : String → Option Mismatch} {l : List String}
    (hf : ∀ k m, f k = some m → m.start = k) :
    ∀ m ∈ l.filterMap f, m.start ∈ l := by
  intro m hm
  rw [List.mem_filterMap] at hm
  obtain ⟨a, ha, hfa⟩ := hm
  rw [hf a m hfa]
  exact ha

theorem filterMap_filter_start {f : String → Option Mismatch} {l : List String}
    (hf : ∀ k m, f k = some m → m.start = k) (hnd : l.Nodup) {k : String} (hk : k ∈ l) :
    (l.filterMap f).filter (fun m => m.start == k) = (f k).toList := by
  induction l with
  | nil => cases hk
  | cons x xs ih =>
    have hndtl : xs.Nodup := (List.nodup_cons.mp hnd).2
    have hrest_none : x = k → (xs.filterMap f).filter (fun m => m.start == k) = [] := by
      intro hx
      subst hx
      have hnotin : x ∉ xs := (List.nodup_cons.mp hnd).1
      rw [List.filter_eq_nil_iff]
      intro m hm
      have := start_mem_of_mem_filterMap hf m hm
      intro hbeq
      rw [beq_iff_eq] at hbeq
      rw [hbeq] at this
      exact hnotin this
    rcases List.mem_cons.mp hk with hx | hx
    · subst hx
      cases hfx : f k with
      | none =>
        rw [List.filterMap_cons_none hfx, hrest_none rfl]
        rfl
      | some m =>
        rw [List.filterMap_cons_some hfx]
        have hstart : m.start = k := hf k m hfx
        rw [List.filter_cons]
        rw [if_pos (by rw [hstart]; exact beq_self_eq_true _)]
        rw [hrest_none rfl]
        rfl
    · have hxk : x ≠ k := by
        intro hh
        subst hh
        exact (List.nodup_cons.mp hnd).1 hx
      cases hfx : f x with
      | none => rw [List.filterMap_cons_none hfx, ih hndtl hx]
      | some m =>
        rw [List.filterMap_cons_some hfx, List.filter_cons]
        have hstart : m.start = x := hf x m hfx
        rw [if_neg (by rw [hstart]; simp [hxk])]
        exact ih hndtl hx

theorem exMapM_parseKey_inv :
    ∀ {l : List String} {ys : List (String × Int)},
      exMapM parseKey l = Except.ok ys →
      ys.map Prod.fst = l ∧ ∀ p ∈ ys, pyInt? p.1 = some p.2 := by
  intro l
  induction l with
  | nil =>
    intro ys h
    cases Except.ok.inj h
    exact ⟨rfl, by intro p hp; cases hp⟩
  | cons x xs ih =>
    intro ys h
    unfold exMapM at h
    split at h
    · cases h
    · rename_i y hy
      split at h
      · cases h
      · rename_i ys2 hys2
        cases Except.ok.inj h
        obtain ⟨hmapeq, hparse⟩ := ih hys2
        unfold parseKey at hy
        split at hy
        · rename_i n hn
          cases Except.ok.inj hy
          refine ⟨?_, ?_⟩
          · simp only [List.map_cons, hmapeq]
          · intro p hp
            rcases List.mem_cons.mp hp with hp | hp
            · rw [hp]; exact hn
            · exact hparse p hp
        · cases hy

theorem exMapM_parseKey_ok {l : List String}
    (h : ∀ k ∈ l, ∃ n : Int, pyInt? k = some n) :
    ∃ ys, exMapM parseKey l = Except.ok ys := by
  induction l with
  | nil => exact ⟨[], rfl⟩
  | cons x xs ih =>
    obtain ⟨n, hn⟩ := h x (List.mem_cons_self x xs)
    obtain ⟨ys2, hys2⟩ := ih (fun k hk => h k (List.mem_cons_of_mem x hk))
    refine ⟨(x, n) :: ys2, ?_⟩
    have hpx : parseKey x = Except.ok (x, n) := by unfold parseKey; rw [hn]
    unfold exMapM
    rw [hpx, hys2]

theorem compare_ok_inv {d : Dataset} {tol : ℚ} {nm : Option String} {ms : List Mismatch}
    (h : compare_conservation d tol = Except.ok (nm, ms)) :
    ∃ cons tbl keyed,
      d.conservation = some cons ∧
      recompute_conservation d = Except.ok tbl ∧
      exMapM parseKey ((cons.map Prod.fst ++ tbl.map Prod.fst).dedup) = Except.ok keyed ∧
      nm = d.name ∧
      ms = ((List.insertionSort sndLe keyed).map Prod.fst).filterMap
        (emitMismatch cons tbl tol) := by
  unfold compare_conservation at h
  split at h
  · cases h
  · rename_i cons hcons
    split at h
    · cases h
    · rename_i tbl hrec
      split at h
      · cases h
      · rename_i keyed hkeyed
        have h2 := Except.ok.inj h
        rw [Prod.mk.injEq] at h2
        exact ⟨cons, tbl, keyed, hcons, hrec, hkeyed, h2.1.symm, h2.2.symm⟩

theorem recompute_keys_canonical {d : Dataset} {tbl : List (String × ℚ)}
    (h : recompute_conservation d = Except.ok tbl) :
    ∀ e ∈ tbl, ∃ n : Int, e.1 = intStr n := by
  obtain ⟨mc, gs, hmc, hg, htbl⟩ := recompute_ok_inv h
  subst htbl
  intro e he
  rw [List.mem_map] at he
  obtain ⟨k, hk, hfk⟩ := he
  exact ⟨k, by rw [← hfk]⟩

theorem sortedKeys_facts {cons : List (String × Option ℚ)} {tbl : List (String × ℚ)}
    {keyed : List (String × Int)}
    (hkeyed : exMapM parseKey ((cons.map Prod.fst ++ tbl.map Prod.fst).dedup) =
      Except.ok keyed) :
    ((List.insertionSort sndLe keyed).map Prod.fst).Nodup ∧
    (∀ k, k ∈ (List.insertionSort sndLe keyed).map Prod.fst ↔
      (k ∈ cons.map Prod.fst ∨ k ∈ tbl.map Prod.fst)) := by
  obtain ⟨hmap, hparse⟩ := exMapM_parseKey_inv hkeyed
  have hperm : List.Perm ((List.insertionSort sndLe keyed).map Prod.fst) (keyed.map Prod.fst) :=
    (List.perm_insertionSort sndLe keyed).map Prod.fst
  constructor
  · rw [hperm.nodup_iff, hmap]
    exact List.nodup_dedup _
  · intro k
    rw [hperm.mem_iff, hmap, List.mem_dedup, List.mem_append]

theorem defaultTol_eq : defaultTol = 1 / 1000000 := by
  unfold defaultTol
  rw [Rat.mkRat_eq_div]
  norm_num

theorem defaultTol_pos : 0 < defaultTol := by decide

/-- C3: when the stored table is exactly the recomputed table, the comparison
at the default tolerance reports no mismatches. -/
theorem compare_agreement (d : Dataset) (mc : Int) (gs : List Gene)
    (tbl : List (String × ℚ))
    (hmc : d.memberCount = some mc) (hpos : 0 < mc) (hg : d.genes = some gs)
    (hrec : recompute_conservation d = Except.ok tbl)
    (hstored : d.conservation = some (tbl.map (fun p => (p.1, some p.2)))) :
    compare_conservation_default d = Except.ok (d.name, []) := by
  have hconskeys : (tbl.map (fun p => (p.1, some p.2))).map Prod.fst = tbl.map Prod.fst := by
    rw [List.map_map]
    apply List.map_congr_left
    intro e he
    rfl
  have hallparse :
      ∀ k ∈ ((tbl.map (fun p => (p.1, some p.2))).map Prod.fst ++ tbl.map Prod.fst).dedup,
        ∃ n : Int, pyInt? k = some n := by
    intro k hk
    rw [List.mem_dedup, List.mem_append, hconskeys, or_self, List.mem_map] at hk
    obtain ⟨e, he, hek⟩ := hk
    obtain ⟨n, hn⟩ := recompute_keys_canonical hrec e he
    exact ⟨n, by rw [← hek, hn, pyInt_intStr]⟩
  obtain ⟨keyed, hkeyed⟩ := exMapM_parseKey_ok hallparse
  obtain ⟨hmap, hparse⟩ := exMapM_parseKey_inv hkeyed
  have hnil : ∀ k2 ∈ (List.insertionSort sndLe keyed).map Prod.fst,
      emitMismatch (tbl.map (fun p => (p.1, some p.2))) tbl defaultTol k2 = none := by
    intro k2 hk2
    have hperm : List.Perm ((List.insertionSort sndLe keyed).map Prod.fst) (keyed.map Prod.fst) :=
      (List.perm_insertionSort sndLe keyed).map Prod.fst
    rw [hperm.mem_iff, hmap, List.mem_dedup, List.mem_append, hconskeys, or_self] at hk2
    obtain ⟨v, hv⟩ := lookupRec_of_mem hk2
    rw [emitMismatch_eq_value (by rw [lookupStored_map_some, hv]) hv]
    rw [if_neg (by rw [sub_self, abs_zero]; exact not_lt.mpr (le_of_lt defaultTol_pos))]
  unfold compare_conservation_default
  simp only [compare_conservation, hstored, hrec, hkeyed]
  rw [List.filterMap_eq_nil_iff.mpr hnil]

/-- C3 witness on the concrete dataset of the specification scenario with
member count two, genes listing starts five, and five and seven, and the
stored table mapping five to one and seven to one half. -/
theorem compare_agreement_witness :
    compare_conservation_default
      (Dataset.mk none (some 2) (some [Gene.mk [5], Gene.mk [5, 7]])
        (some [(intStr 5, some 1), (intStr 7, some (mkRat 1 2))])) =
      Except.ok (none, []) :=
  compare_agreement _ 2 [Gene.mk [5], Gene.mk [5, 7]] [(intStr 5, 1), (intStr 7, mkRat 1 2)]
    rfl (by decide) rfl (by decide) (by decide)

/-- C4: for a key present with a value on both sides, a value_mismatch record
carrying both values is produced exactly when the absolute difference
strictly exceeds the tolerance, so an exact tolerance gap yields nothing;
the tolerance is a per-call argument whose default call form uses the
literal 1e-6. -/
theorem compare_value_mismatch_iff (d : Dataset) (tol : ℚ) (nm : Option String)
    (ms : List Mismatch) (cons : List (String × Option ℚ)) (tbl : List (String × ℚ))
    (k : String) (jc rc : ℚ)
    (hcons : d.conservation = some cons)
    (hrec : recompute_conservation d = Except.ok tbl)
    (hjc : lookupStored cons k = some jc)
    (hrc : lookupRec tbl k = some rc)
    (hcmp : compare_conservation d tol = Except.ok (nm, ms)) :
    (ms.filter (fun m => m.start == k) =
      if tol < |jc - rc| then [Mismatch.mk k Issue.value_mismatch (some jc) (some rc)]
      else []) ∧
    (∀ d2 : Dataset, compare_conservation_default d2 = compare_conservation d2 (1 / 1000000)) := by
  obtain ⟨cons2, tbl2, keyed, hcons2, hrec2, hkeyed, hnm, hms⟩ := compare_ok_inv hcmp
  rw [hcons] at hcons2
  obtain rfl : cons2 = cons := (Option.some.inj hcons2).symm
  rw [hrec] at hrec2
  obtain rfl : tbl2 = tbl := (Except.ok.inj hrec2).symm
  obtain ⟨hnodup, hmem⟩ := sortedKeys_facts hkeyed
  have hk : k ∈ (List.insertionSort sndLe keyed).map Prod.fst :=
    (hmem k).mpr (Or.inl (lookupStored_some_mem hjc))
  constructor
  · rw [hms, filterMap_filter_start (fun k2 m h => emitMismatch_start h) hnodup hk,
      emitMismatch_eq_value hjc hrc]
    split_ifs with h
    · rfl
    · rfl
  · intro d2
    unfold compare_conservation_default
    rw [defaultTol_eq]

/-- C4 witness on the concrete scenario with stored value one half against
recomputed value one at key five, and agreement at key seven. -/
theorem compare_value_mismatch_iff_witness :
    (([Mismatch.mk (intStr 5) Issue.value_mismatch (some (mkRat 1 2)) (some 1)].filter
        (fun m => m.start == intStr 5) =
      if defaultTol < |mkRat 1 2 - 1| then
        [Mismatch.mk (intStr 5) Issue.value_mismatch (some (mkRat 1 2)) (some 1)]
      else []) ∧
    (∀ d2 : Dataset,
      compare_conservation_default d2 = compare_conservation d2 (1 / 1000000))) :=
  compare_value_mismatch_iff
    (Dataset.mk none (some 2) (some [Gene.mk [5], Gene.mk [5, 7]])
      (some [(intStr 5, some (mkRat 1 2)), (intStr 7, some (mkRat 1 2))]))
    defaultTol none
    [Mismatch.mk (intStr 5) Issue.value_mismatch (some (mkRat 1 2)) (some 1)]
    [(intStr 5, some (mkRat 1 2)), (intStr 7, some (mkRat 1 2))]
    [(intStr 5, 1), (intStr 7, mkRat 1 2)]
    (intStr 5) (mkRat 1 2) 1
    rfl (by decide) (by decide) (by decide) (by decide)

/-- C5: with canonically encoded stored keys, successive mismatches carry
keys whose integer values strictly increase, the numeric order of the sorted
call with key int, not the lexicographic string order. -/
theorem compare_mismatches_sorted (d : Dataset) (tol : ℚ) (nm : Option String)
    (ms : List Mismatch) (cons : List (String × Option ℚ))
    (hcons : d.conservation = some cons)
    (hcanon : ∀ e ∈ cons, ∃ n : Int, e.1 = intStr n)
    (hcmp : compare_conservation d tol = Except.ok (nm, ms)) :
    ms.Pairwise (fun m1 m2 => ∃ a b : Int,
      pyInt? m1.start = some a ∧ pyInt? m2.start = some b ∧ a < b) := by
  obtain ⟨cons2, tbl, keyed, hcons2, hrec, hkeyed, hnm, hms⟩ := compare_ok_inv hcmp
  rw [hcons] at hcons2
  obtain rfl : cons2 = cons := (Option.some.inj hcons2).symm
  obtain ⟨hmap, hparse⟩ := exMapM_parseKey_inv hkeyed
  have hperm : List.Perm (List.insertionSort sndLe keyed) keyed :=
    List.perm_insertionSort sndLe keyed
  have hcanon2 : ∀ e ∈ keyed, e.1 = intStr e.2 := by
    intro e he
    have h1 : e.1 ∈ keyed.map Prod.fst := List.mem_map_of_mem Prod.fst he
    rw [hmap, List.mem_dedup, List.mem_append] at h1
    have hex : ∃ n : Int, e.1 = intStr n := by
      rcases h1 with h1 | h1
      · rw [List.mem_map] at h1
        obtain ⟨e2, he2, hee⟩ := h1
        obtain ⟨n, hn⟩ := hcanon e2 he2
        exact ⟨n, by rw [← hee, hn]⟩
      · rw [List.mem_map] at h1
        obtain ⟨e2, he2, hee⟩ := h1
        obtain ⟨n, hn⟩ := recompute_keys_canonical hrec e2 he2
        exact ⟨n, by rw [← hee, hn]⟩
    obtain ⟨n, hn⟩ := hex
    have hp := hparse e he
    rw [hn, pyInt_intStr] at hp
    rw [hn, Option.some.inj hp]
  have hsorted : (List.insertionSort sndLe keyed).Pairwise sndLe :=
    List.sorted_insertionSort sndLe keyed
  have hnodupfst : ((List.insertionSort sndLe keyed).map Prod.fst).Pairwise
      (fun a b => a ≠ b) := by
    have hnd : ((List.insertionSort sndLe keyed).map Prod.fst).Nodup := by
      rw [(hperm.map Prod.fst).nodup_iff, hmap]
      exact List.nodup_dedup _
    exact hnd
  have hnodup2 : (List.insertionSort sndLe keyed).Pairwise (fun a b => a.1 ≠ b.1) := by
    rw [List.pairwise_map] at hnodupfst
    exact hnodupfst
  have hstrict : (List.insertionSort sndLe keyed).Pairwise (fun a b => a.2 < b.2) := by
    refine (hsorted.and hnodup2).imp_of_mem ?_
    intro a b ha hb hab
    rcases lt_or_eq_of_le hab.1 with hlt | heq
    · exact hlt
    · exfalso
      apply hab.2
      rw [hcanon2 a (hperm.mem_iff.mp ha), hcanon2 b (hperm.mem_iff.mp hb), heq]
  rw [hms, List.pairwise_filterMap, List.pairwise_map]
  refine hstrict.imp_of_mem ?_
  intro a b ha hb hlt m1 hm1 m2 hm2
  have hs1 : m1.start = a.1 := emitMismatch_start (Option.mem_def.mp hm1)
  have hs2 : m2.start = b.1 := emitMismatch_start (Option.mem_def.mp hm2)
  refine ⟨a.2, b.2, ?_, ?_, hlt⟩
  · rw [hs1, hcanon2 a (hperm.mem_iff.mp ha), pyInt_intStr]
  · rw [hs2, hcanon2 b (hperm.mem_iff.mp hb), pyInt_intStr]

/-- C5 witness: stored keys nine, ten and two with null values and no genes
produce mismatches visited in the numeric order two, nine, ten. -/
theorem compare_mismatches_sorted_witness :
    ([Mismatch.mk (intStr 2) Issue.missing_in_one_side none none,
      Mismatch.mk (intStr 9) Issue.missing_in_one_side none none,
      Mismatch.mk (intStr 10) Issue.missing_in_one_side none none] :
        List Mismatch).Pairwise
      (fun m1 m2 => ∃ a b : Int,
        pyInt? m1.start = some a ∧ pyInt? m2.start = some b ∧ a < b) :=
  compare_mismatches_sorted
    (Dataset.mk none (some 1) (some [])
      (some [(intStr 9, none), (intStr 10, none), (intStr 2, none)]))
    defaultTol none _
    [(intStr 9, none), (intStr 10, none), (intStr 2, none)]
    rfl
    (by
      intro e he
      rcases List.mem_cons.mp he with h | he2
      · exact ⟨9, by rw [h]⟩
      · rcases List.mem_cons.mp he2 with h | he3
        · exact ⟨10, by rw [h]⟩
        · rcases List.mem_cons.mp he3 with h | he4
          · exact ⟨2, by rw [h]⟩
          · cases he4)
    (by decide)

/-- C6: a key present in exactly one of the two tables yields exactly one
missing_in_one_side record, carrying the looked-up value of the present side
while the absent side carries no value; every reported key belongs to one of
the tables. -/
theorem compare_missing_in_one_side (d : Dataset) (tol : ℚ) (nm : Option String)
    (ms : List Mismatch) (cons : List (String × Option ℚ)) (tbl : List (String × ℚ))
    (k : String)
    (hcons : d.conservation = some cons)
    (hrec : recompute_conservation d = Except.ok tbl)
    (hone : (k ∈ cons.map Prod.fst ∧ k ∉ tbl.map Prod.fst) ∨
      (k ∉ cons.map Prod.fst ∧ k ∈ tbl.map Prod.fst))
    (hcmp : compare_conservation d tol = Except.ok (nm, ms)) :
    ms.filter (fun m => m.start == k) =
      [Mismatch.mk k Issue.missing_in_one_side (lookupStored cons k) (lookupRec tbl k)] ∧
    (k ∉ cons.map Prod.fst → lookupStored cons k = none) ∧
    (k ∉ tbl.map Prod.fst → lookupRec tbl k = none) ∧
    (∀ m ∈ ms, m.start ∈ cons.map Prod.fst ∨ m.start ∈ tbl.map Prod.fst) := by
  obtain ⟨cons2, tbl2, keyed, hcons2, hrec2, hkeyed, hnm, hms⟩ := compare_ok_inv hcmp
  rw [hcons] at hcons2
  obtain rfl : cons = cons2 := Option.some.inj hcons2
  rw [hrec] at hrec2
  obtain rfl : tbl = tbl2 := Except.ok.inj hrec2
  obtain ⟨hnodup, hmem⟩ := sortedKeys_facts hkeyed
  have hmiss : lookupStored cons k = none ∨ lookupRec tbl k = none := by
    rcases hone with ⟨h1, h2⟩ | ⟨h1, h2⟩
    · exact Or.inr (lookupRec_eq_none_of_not_mem h2)
    · exact Or.inl (lookupStored_eq_none_of_not_mem h1)
  have hk : k ∈ (List.insertionSort sndLe keyed).map Prod.fst := by
    rcases hone with ⟨h1, _⟩ | ⟨_, h2⟩
    · exact (hmem k).mpr (Or.inl h1)
    · exact (hmem k).mpr (Or.inr h2)
  refine ⟨?_, fun h => lookupStored_eq_none_of_not_mem h,
    fun h => lookupRec_eq_none_of_not_mem h, ?_⟩
  · rw [hms, filterMap_filter_start (fun k2 m h => emitMismatch_start h) hnodup hk,
      emitMismatch_eq_missing hmiss]
    rfl
  · intro m hm
    rw [hms] at hm
    exact (hmem m.start).mp
      (start_mem_of_mem_filterMap (fun k2 m2 h => emitMismatch_start h) m hm)

/-- C6 witness: a stored table with the extra key nine that the recomputed
table lacks yields exactly one missing_in_one_side record for nine. -/
theorem compare_missing_in_one_side_witness :
    ([Mismatch.mk (intStr 9) Issue.missing_in_one_side (some (mkRat 1 2)) none] :
        List Mismatch).filter (fun m => m.start == intStr 9) =
      [Mismatch.mk (intStr 9) Issue.missing_in_one_side
        (lookupStored
          [(intStr 5, some 1), (intStr 7, some (mkRat 1 2)), (intStr 9, some (mkRat 1 2))]
          (intStr 9))
        (lookupRec [(intStr 5, 1), (intStr 7, mkRat 1 2)] (intStr 9))] ∧
    (intStr 9 ∉
        ([(intStr 5, some 1), (intStr 7, some (mkRat 1 2)),
          (intStr 9, some (mkRat 1 2))].map Prod.fst) →
      lookupStored
        [(intStr 5, some 1), (intStr 7, some (mkRat 1 2)), (intStr 9, some (mkRat 1 2))]
        (intStr 9) = none) ∧
    (intStr 9 ∉ ([(intStr 5, 1), (intStr 7, mkRat 1 2)].map Prod.fst) →
      lookupRec [(intStr 5, 1), (intStr 7, mkRat 1 2)] (intStr 9) = none) ∧
    (∀ m ∈ ([Mismatch.mk (intStr 9) Issue.missing_in_one_side (some (mkRat 1 2)) none] :
        List Mismatch),
      m.start ∈
        ([(intStr 5, some 1), (intStr 7, some (mkRat 1 2)),
          (intStr 9, some (mkRat 1 2))].map Prod.fst) ∨
      m.start ∈ ([(intStr 5, 1), (intStr 7, mkRat 1 2)].map Prod.fst)) :=
  compare_missing_in_one_side
    (Dataset.mk none (some 2) (some [Gene.mk [5], Gene.mk [5, 7]])
      (some [(intStr 5, some 1), (intStr 7, some (mkRat 1 2)),
        (intStr 9, some (mkRat 1 2))]))
    defaultTol none
    [Mismatch.mk (intStr 9) Issue.missing_in_one_side (some (mkRat 1 2)) none]
    [(intStr 5, some 1), (intStr 7, some (mkRat 1 2)), (intStr 9, some (mkRat 1 2))]
    [(intStr 5, 1), (intStr 7, mkRat 1 2)]
    (intStr 9)
    rfl (by decide) (Or.inl ⟨by decide, by decide⟩) (by decide)

/-- C7 counterexample: with the Name field absent, compare returns none as
the first component; there is no fallback identifier parameter whose value
could appear instead, so the claimed caller-supplied fallback is absent from
this function. -/
theorem compare_no_fallback_counterexample :
    (Dataset.mk none (some 1) (some []) (some [])).name = none ∧
      compare_conservation_default (Dataset.mk none (some 1) (some []) (some [])) =
        Except.ok (none, []) := ⟨rfl, by decide⟩

/-- C7 amended: the first component of a successful compare is exactly the
Name field of the dataset, an optional value with no substituted fallback;
the substitution of the pham id happens in the batch driver. -/
theorem compare_first_component_is_name (d : Dataset) (tol : ℚ)
    (nm : Option String) (ms : List Mismatch)
    (hcmp : compare_conservation d tol = Except.ok (nm, ms)) : nm = d.name := by
  obtain ⟨cons, tbl, keyed, hcons, hrec, hkeyed, hnm, hms⟩ := compare_ok_inv hcmp
  exact hnm

/-- C7 amended witness: a dataset carrying a name returns that name. -/
theorem compare_first_component_is_name_witness :
    (some (String.mk ['A']) : Option String) =
      (Dataset.mk (some (String.mk ['A'])) (some 1) (some []) (some [])).name :=
  compare_first_component_is_name
    (Dataset.mk (some (String.mk ['A'])) (some 1) (some []) (some []))
    defaultTol (some (String.mk ['A'])) [] (by decide)

/-- C9: a stored entry holding a null value is treated exactly like an
absent stored key: the key yields one missing_in_one_side record with no
stored value, never a value_mismatch. -/
theorem compare_null_stored_as_missing (d : Dataset) (tol : ℚ) (nm : Option String)
    (ms : List Mismatch) (cons : List (String × Option ℚ)) (tbl : List (String × ℚ))
    (k : String)
    (hcons : d.conservation = some cons)
    (hrec : recompute_conservation d = Except.ok tbl)
    (hmemk : k ∈ cons.map Prod.fst)
    (hnull : lookupStored cons k = none)
    (hcmp : compare_conservation d tol = Except.ok (nm, ms)) :
    ms.filter (fun m => m.start == k) =
      [Mismatch.mk k Issue.missing_in_one_side none (lookupRec tbl k)] := by
  obtain ⟨cons2, tbl2, keyed, hcons2, hrec2, hkeyed, hnm, hms⟩ := compare_ok_inv hcmp
  rw [hcons] at hcons2
  obtain rfl : cons = cons2 := Option.some.inj hcons2
  rw [hrec] at hrec2
  obtain rfl : tbl = tbl2 := Except.ok.inj hrec2
  obtain ⟨hnodup, hmem⟩ := sortedKeys_facts hkeyed
  have hk : k ∈ (List.insertionSort sndLe keyed).map Prod.fst :=
    (hmem k).mpr (Or.inl hmemk)
  rw [hms, filterMap_filter_start (fun k2 m h => emitMismatch_start h) hnodup hk,
    emitMismatch_eq_missing (Or.inl hnull), hnull]
  rfl

/-- C9 witness: key five stored with a null value while the recomputation
yields one for it produces a single missing_in_one_side record. -/
theorem compare_null_stored_as_missing_witness :
    ([Mismatch.mk (intStr 5) Issue.missing_in_one_side none (some 1)] :
        List Mismatch).filter (fun m => m.start == intStr 5) =
      [Mismatch.mk (intStr 5) Issue.missing_in_one_side none
        (lookupRec [(intStr 5, 1)] (intStr 5))] :=
  compare_null_stored_as_missing
    (Dataset.mk none (some 1) (some [Gene.mk [5]]) (some [(intStr 5, none)]))
    defaultTol none
    [Mismatch.mk (intStr 5) Issue.missing_in_one_side none (some 1)]
    [(intStr 5, none)] [(intStr 5, 1)] (intStr 5)
    rfl (by decide) (by decide) (by decide) (by decide)

theorem lineId_iff (raw : String) (n : Int) :
    lineId? raw = some n ↔
      ((pyStrip raw).data.head? ≠ some '#' ∧ pyInt? (pyStrip raw) = some n) := by
  unfold lineId?
  cases hdata : (pyStrip raw).data with
  | nil =>
    constructor
    · intro h; cases h
    · rintro ⟨h1, h2⟩
      unfold pyInt? at h2
      rw [hdata] at h2
      cases h2
  | cons c rest =>
    have hred : (match c :: rest with
        | [] => (none : Option Int)
        | c2 :: _ => if c2 = '#' then none else pyInt? (pyStrip raw)) =
        (if c = '#' then none else pyInt? (pyStrip raw)) := rfl
    rw [hred]
    by_cases hc : c = '#'
    · subst hc
      rw [if_pos rfl]
      constructor
      · intro h; cases h
      · rintro ⟨h1, h2⟩
        exact absurd rfl h1
    · rw [if_neg hc]
      constructor
      · intro h
        refine ⟨?_, h⟩
        intro hh
        exact hc (Option.some.inj hh)
      · rintro ⟨h1, h2⟩
        exact h2

/-- C8: loading the identifier list from its text ignores blank lines and
hash-comment lines, keeps exactly the integers parsed from the surviving
stripped lines, skipping unparsable ones, and returns them deduplicated in
strictly ascending order. -/
theorem load_pham_ids_spec (text : String) :
    (load_pham_ids text).Pairwise (fun a b : Int => a < b) ∧
    (load_pham_ids text).Nodup ∧
    (∀ n : Int, n ∈ load_pham_ids text ↔
      ∃ raw ∈ pySplitlines text,
        (pyStrip raw).data.head? ≠ some '#' ∧ pyInt? (pyStrip raw) = some n) := by
  have hperm : List.Perm (load_pham_ids text)
      ((pySplitlines text).filterMap lineId?).dedup := by
    unfold load_pham_ids
    exact List.perm_insertionSort _ _
  have hnodup : (load_pham_ids text).Nodup := by
    rw [hperm.nodup_iff]
    exact List.nodup_dedup _
  have hsorted : (load_pham_ids text).Pairwise (fun a b : Int => a ≤ b) := by
    unfold load_pham_ids
    exact List.sorted_insertionSort _ _
  refine ⟨?_, hnodup, ?_⟩
  · have hne : (load_pham_ids text).Pairwise (fun a b : Int => a ≠ b) := hnodup
    refine (hsorted.and hne).imp ?_
    intro a b hab
    exact lt_of_le_of_ne hab.1 hab.2
  · intro n
    rw [hperm.mem_iff, List.mem_dedup, List.mem_filterMap]
    constructor
    · rintro ⟨raw, hraw, hid⟩
      exact ⟨raw, hraw, (lineId_iff raw n).mp hid⟩
    · rintro ⟨raw, hraw, h⟩
      exact ⟨raw, hraw, (lineId_iff raw n).mpr h⟩

end VerifyJson
